import Mathlib

/-!
Shallow embedding of the `hn-user-segmenter` binary codec (src/serializer.rs),
its frequency-table data model (src/text/text_item.rs) and the parallel merge
used by the aggregation pipeline (src/main.rs).

Bytes are modelled as `Nat` (values below 256 in real streams); `BTreeMap` is
modelled as a sorted association list over byte strings with lexicographic key
order; Rust slice-indexing panics are modelled by `Option` (`none` = panic);
`u64` arithmetic wraps modulo `2 ^ 64`.  The byte-scanning loops of
`try_deserialize_original` and `extract_user` advance `i` by exactly one per
iteration, so the `while i < data.len()` loop is modelled structurally with a
fuel argument equal to `data.length - i` (fuel reaches zero exactly when the
loop condition fails).
-/

set_option maxRecDepth 10000

abbrev Bytes := List Nat

abbrev AL (α : Type) := List (Bytes × α)

/-- Model of `PooMapInner` from text_item.rs: word → u64 count (BTreeMap as sorted list). -/
abbrev PooMapInner := AL Nat

/-- Model of `PooMap` from text_item.rs: author → word → count. -/
abbrev PooMap := AL PooMapInner

/-- Lexicographic comparison of byte strings, the `Ord` instance BTreeMap keys use. -/
def lexCmp : Bytes → Bytes → Ordering
  | [], [] => .eq
  | [], _ :: _ => .lt
  | _ :: _, [] => .gt
  | a :: as, b :: bs => if a < b then .lt else if b < a then .gt else lexCmp as bs

/-- Lookup, `BTreeMap::get`: the value bound to a key, if any. -/
def look {α : Type} : AL α → Bytes → Option α
  | [], _ => none
  | (k, v) :: t, key => if key = k then some v else look t key

/-- The `BTreeMap::entry` primitive on a sorted association list: if `k` is
absent insert `(k, d)` at its sorted position, otherwise rewrite the bound
value through `g`. -/
def upd {α : Type} (m : AL α) (k : Bytes) (g : α → α) (d : α) : AL α :=
  match m with
  | [] => [(k, d)]
  | (q, v) :: t =>
    match lexCmp k q with
    | .lt => (k, d) :: (q, v) :: t
    | .eq => (q, g v) :: t
    | .gt => (q, v) :: upd t k g d

/-- Insertion, `BTreeMap::insert`: bind `k` to `v`, replacing any previous binding. -/
def insertRep {α : Type} (m : AL α) (k : Bytes) (v : α) : AL α :=
  upd m k (fun _ => v) v

/-- The nested-loop shape shared by `TextItem::ingest` and the fold/reduce
closures in main.rs: for each `(k, x)` of `l`, `m.entry(k).or_insert(dflt)`
then combine `x` into the entry. -/
def absorb {α β : Type} (combine : α → β → α) (dflt : α) (m : AL α) (l : AL β) : AL α :=
  l.foldl (fun m p => upd m p.1 (fun v => combine v p.2) (combine dflt p.2)) m

/-- Wrapping `u64` addition (`add_assign` on `u64`). -/
def add64 (a b : Nat) : Nat := (a + b) % 18446744073709551616

/-- Inner loop of the merge in main.rs: `author_map.entry(word).or_insert(0).add_assign(freq)`
for every `(word, freq)` of `other`. -/
def mergeInner (m other : PooMapInner) : PooMapInner := absorb add64 0 m other

/-- The merge of two author tables, from the `reduce` closure in main.rs
(same shape as `TextItem::ingest`): every entry of `other` is added into `acc`. -/
def mergePoo (acc other : PooMap) : PooMap := absorb mergeInner [] acc other

/-- Big-endian bytes of a `u32` (`u32::to_be_bytes` composed with `as u32`). -/
def be4 (f : Nat) : Bytes :=
  [f / 16777216 % 256, f / 65536 % 256, f / 256 % 256, f % 256]

/-- Big-endian bytes of a `u64` (`u64::to_be_bytes`). -/
def be8 (f : Nat) : Bytes :=
  [f / 72057594037927936 % 256, f / 281474976710656 % 256, f / 1099511627776 % 256,
   f / 4294967296 % 256, f / 16777216 % 256, f / 65536 % 256, f / 256 % 256, f % 256]

/-- Big-endian value of a byte string (`uNN::from_be_bytes`). -/
def beVal (l : Bytes) : Nat := l.foldl (fun a b => a * 256 + b) 0

/-- The frequency payload and its marker pair as `serialize_with_writer`
emits them: 1 byte and tag 255 if `freq ≤ 255`, else 4 big-endian bytes and
tag 254 if `freq ≤ u32::MAX`, else 8 big-endian bytes and tag 253. -/
def freqChunk (freq : Nat) : Bytes :=
  if freq ≤ 255 then [freq % 256, 255, 0]
  else if freq ≤ 4294967295 then be4 freq ++ [254, 0]
  else be8 freq ++ [253, 0]

/-- One word entry of an author record: the word bytes then its frequency chunk. -/
def serEntry (word : Bytes) (freq : Nat) : Bytes := word ++ freqChunk freq

/-- One author record: author bytes, Author marker pair 245 0, the word
entries, then the AuthorEnd marker pair 244 0. -/
def serAuthor (author : Bytes) (freqs : PooMapInner) : Bytes :=
  author ++ [245, 0] ++ freqs.foldl (fun b p => b ++ serEntry p.1 p.2) [] ++ [244, 0]

/-- The 7 ASCII bytes of the magic tag. -/
def ragegunMagic : Bytes := [114, 97, 103, 101, 103, 117, 110]

/-- Encoder `serialize_with_writer`: magic, version 1 as big-endian `u32`, author
count and total word count as big-endian `u64`, the author records in key
order, then the End marker pair 243 0. -/
def serialize (t : PooMap) : Bytes :=
  ragegunMagic ++ be4 1 ++ be8 t.length ++ be8 (t.foldl (fun n p => n + p.2.length) 0)
    ++ t.foldl (fun b p => b ++ serAuthor p.1 p.2) [] ++ [243, 0]

inductive Marker
  | freqU8
  | freqU32
  | freqU64
  | author
  | authorEnd
  | endMark
  | unknown
deriving DecidableEq

/-- Tag classification, `Marker::from_byte`. -/
def Marker.fromByte (b : Nat) : Marker :=
  if b = 255 then .freqU8
  else if b = 254 then .freqU32
  else if b = 253 then .freqU64
  else if b = 245 then .author
  else if b = 244 then .authorEnd
  else if b = 243 then .endMark
  else .unknown

/-- The marker recognized at scan position `i`: only when the byte at `i` is
zero and `i` is not the first position is the preceding byte read as a tag. -/
def mkMarker (data : Bytes) (i : Nat) : Marker :=
  if data.getD i 0 = 0 ∧ i ≠ 0 then Marker.fromByte (data.getD (i - 1) 0) else .unknown

/-- Rust slice `&data[a..b]`: `none` models the panic when `a > b` or
`b > data.len()`. -/
def rustSlice (data : Bytes) (a b : Nat) : Option Bytes :=
  if a ≤ b ∧ b ≤ data.length then some ((data.drop a).take (b - a)) else none

inductive RAction
  | freqWordOffset (freq : Nat) (off : Nat)
  | cont
deriving DecidableEq

/-- Frame splitting, `establish_freqs` from serializer.rs.  For `FreqU8` it reads
`frame[frame.len() - 2]`; for `FreqU32` the four bytes
`frame[frame.len() - 5 .. frame.len() - 1]`; for `FreqU64` the eight bytes
`frame[frame.len() - 9 .. frame.len() - 1]`.  A frame shorter than the indices
demand makes the Rust indexing panic, modelled by `none`. -/
def establish_freqs (marker : Marker) (frame : Bytes) : Option RAction :=
  match marker with
  | .freqU8 =>
    if 2 ≤ frame.length then
      some (.freqWordOffset (frame.getD (frame.length - 2) 0) 1)
    else none
  | .freqU32 =>
    if 5 ≤ frame.length then
      some (.freqWordOffset (beVal ((frame.drop (frame.length - 5)).take 4)) 5)
    else none
  | .freqU64 =>
    if 9 ≤ frame.length then
      some (.freqWordOffset (beVal ((frame.drop (frame.length - 9)).take 8)) 9)
    else none
  | _ => some .cont

inductive DeState
  | findAuthor
  | author (id : Bytes) (freqs : PooMapInner) (skip : Bool)
deriving DecidableEq

/-- Substring test `word.windows(4).any(|w| w == b"http")`. -/
def containsHttp : Bytes → Bool
  | [] => false
  | b0 :: rest =>
    (match rest with
     | b1 :: b2 :: b3 :: _ =>
       (b0 == 104) && (b1 == 116) && (b2 == 116) && (b3 == 112)
     | _ => false)
    || containsHttp rest

/-- Digit test `(*w as char).is_ascii_digit()`. -/
def isDigitByte (b : Nat) : Bool := decide (48 ≤ b ∧ b ≤ 57)

/-- All-digits test `!word.iter().any(|w| !w.is_ascii_digit())`: every byte is a decimal digit
(vacuously true of the empty word, as in the source). -/
def allDigits (w : Bytes) : Bool := !(w.any (fun b => !(isDigitByte b)))

/-- The `should_skip` corpus-noise filter guarding every insertion in
`try_deserialize_original` and `extract_user`. -/
def shouldSkip (w : Bytes) : Bool := containsHttp w || allDigits w

/-- The scan loop of `try_deserialize_original`.  The fuel argument equals
`data.length - i` so that fuel runs out exactly when `i < data.len()` fails;
each Rust iteration advances `i` by one.  `none` models a panic. -/
def deserLoop (data : Bytes) : Nat → Nat → Nat → DeState → PooMap → Option PooMap
  | 0, _, _, _, acc => some acc
  | fuel + 1, i, lmp, st, acc =>
    let marker := mkMarker data i
    if marker = .unknown then deserLoop data fuel (i + 1) lmp st acc
    else
      match st with
      | .findAuthor =>
        match marker with
        | .author =>
          match rustSlice data lmp (i - 1) with
          | none => none
          | some id => deserLoop data fuel (i + 1) lmp (.author id [] false) acc
        | .endMark => some acc
        | _ => deserLoop data fuel (i + 1) lmp .findAuthor acc
      | .author id freqs sk =>
        match rustSlice data (lmp + 1) (i - 1) with
        | none => none
        | some frame =>
          match marker with
          | .freqU8 | .freqU32 | .freqU64 =>
            match establish_freqs marker frame with
            | none => none
            | some (.freqWordOffset f off) =>
              let word := frame.take (frame.length - off)
              if shouldSkip word then
                deserLoop data fuel (i + 1) i (.author id freqs sk) acc
              else
                deserLoop data fuel (i + 1) i (.author id (insertRep freqs word f) sk) acc
            | some .cont => deserLoop data fuel (i + 1) i (.author id freqs sk) acc
          | .author =>
            match rustSlice data lmp (i - 1) with
            | none => none
            | some id2 => deserLoop data fuel (i + 1) lmp (.author id2 [] false) acc
          | .authorEnd =>
            deserLoop data fuel (i + 1) i .findAuthor (insertRep acc id freqs)
          | .endMark => some acc
          | _ => deserLoop data fuel (i + 1) lmp (.author id freqs sk) acc

/-- Legacy entry point `try_deserialize_original`. -/
def try_deserialize_original (data : Bytes) : Option PooMap :=
  deserLoop data data.length 0 0 .findAuthor []

/-- Headered entry point `try_deserialize_Nov2022A`: the legacy scan applied to `&data[28..]`. -/
def try_deserialize_Nov2022A (data : Bytes) : Option PooMap :=
  match rustSlice data 28 data.length with
  | none => none
  | some rest => try_deserialize_original rest

inductive RGFileFormat
  | nov2022A (authors words : Nat)
  | unknown
  | tooShort
deriving DecidableEq

/-- Classification `RGFileFormat::from_byte`. -/
def RGFileFormat.from_byte (hasMagic : Bool) (version authors words : Nat) : RGFileFormat :=
  if !hasMagic then .unknown
  else if version = 1 then .nov2022A authors words
  else .unknown

/-- Detection `RGFileFormat::from_buf`: buffers shorter than 10 bytes classify
`TooShort`; otherwise the header fields are read at fixed indices up to
`data[26]`, which panics (`none`) whenever `10 ≤ data.len() < 27`. -/
def RGFileFormat.from_buf (data : Bytes) : Option RGFileFormat :=
  if data.length < 10 then some .tooShort
  else if data.length < 27 then none
  else
    some (RGFileFormat.from_byte
      (data.take 7 == ragegunMagic)
      (beVal [data.getD 7 0, data.getD 8 0, data.getD 9 0, data.getD 10 0])
      (beVal ((data.drop 11).take 8))
      (beVal ((data.drop 19).take 8)))

/-- Top-level `deserialize`: dispatch on the detected format. -/
def deserialize (data : Bytes) : Option PooMap :=
  match RGFileFormat.from_buf data with
  | none => none
  | some (.nov2022A _ _) => try_deserialize_Nov2022A data
  | some .unknown => try_deserialize_original data
  | some .tooShort => some []

/-- The scan loop of `extract_user`.  Differences from `deserLoop`, as in the
source: author identifiers are sliced from `last_marker_pos + 1`; the `skip`
flag is set by a byte-exact comparison with the requested user; frequency
frames of skipped authors are not parsed; `AuthorEnd` of a matching author
returns its table at once; an `Author` marker inside an author record falls
into the invalid-marker arm; `End` and end-of-buffer return `None` (the inner
`none`).  The outer `none` models a panic. -/
def extractLoop (data user : Bytes) :
    Nat → Nat → Nat → DeState → PooMap → Option (Option PooMapInner)
  | 0, _, _, _, _ => some none
  | fuel + 1, i, lmp, st, acc =>
    let marker := mkMarker data i
    if marker = .unknown then extractLoop data user fuel (i + 1) lmp st acc
    else
      match st with
      | .findAuthor =>
        match marker with
        | .author =>
          match rustSlice data (lmp + 1) (i - 1) with
          | none => none
          | some id => extractLoop data user fuel (i + 1) lmp (.author id [] (id ≠ user)) acc
        | .endMark => some none
        | _ => extractLoop data user fuel (i + 1) lmp .findAuthor acc
      | .author id freqs sk =>
        match rustSlice data (lmp + 1) (i - 1) with
        | none => none
        | some frame =>
          match marker with
          | .freqU8 | .freqU32 | .freqU64 =>
            if sk then extractLoop data user fuel (i + 1) i (.author id freqs sk) acc
            else
              match establish_freqs marker frame with
              | none => none
              | some (.freqWordOffset f off) =>
                let word := frame.take (frame.length - off)
                if shouldSkip word then
                  extractLoop data user fuel (i + 1) i (.author id freqs sk) acc
                else
                  extractLoop data user fuel (i + 1) i (.author id (insertRep freqs word f) sk) acc
              | some .cont => extractLoop data user fuel (i + 1) i (.author id freqs sk) acc
          | .authorEnd =>
            if sk then
              extractLoop data user fuel (i + 1) i .findAuthor (insertRep acc id freqs)
            else some (some freqs)
          | .endMark => some none
          | _ => extractLoop data user fuel (i + 1) lmp (.author id freqs sk) acc

/-- Selective extractor entry point `extract_user`. -/
def extract_user (data user : Bytes) : Option (Option PooMapInner) :=
  extractLoop data user data.length 0 0 .findAuthor []

/-- A reserved marker tag byte. -/
def isReservedTag (b : Nat) : Bool :=
  decide (b = 255 ∨ b = 254 ∨ b = 253 ∨ b = 245 ∨ b = 244 ∨ b = 243)

/-- Whether a byte string contains a reserved tag byte immediately followed by
a zero byte, the collision the round-trip claim excludes. -/
def containsMarkerPair : Bytes → Bool
  | [] => false
  | b0 :: rest =>
    (match rest with
     | b1 :: _ => isReservedTag b0 && (b1 == 0)
     | _ => false)
    || containsMarkerPair rest

/-- Keys strictly increase in lexicographic order: the `BTreeMap` shape
invariant of the association-list model. -/
def SortedKeys {α : Type} (m : AL α) : Prop :=
  List.Pairwise (fun p q => lexCmp p.1 q.1 = .lt) m

/-- Well-formed word table: sorted keys and `u64`-bounded counts. -/
def InnerWF (m : PooMapInner) : Prop :=
  SortedKeys m ∧ ∀ p ∈ m, p.2 < 18446744073709551616

/-- Well-formed author table: sorted author keys, well-formed word tables. -/
def TableWF (t : PooMap) : Prop :=
  SortedKeys t ∧ ∀ q ∈ t, InnerWF q.2

/-- A word the corpus-noise filter admits. -/
def wordOk (w : Bytes) : Prop := containsHttp w = false ∧ allDigits w = false

/-- Every word of a word table passes the noise filter. -/
def innerOk (m : PooMapInner) : Prop := ∀ p ∈ m, wordOk p.1

/-- Every word of every author record passes the noise filter. -/
def tableOk (t : PooMap) : Prop := ∀ q ∈ t, innerOk q.2

/-- The scanner-state invariant for the noise-filter property. -/
def stOk : DeState → Prop
  | .findAuthor => True
  | .author _ m _ => innerOk m

theorem lexCmp_self (a : Bytes) : lexCmp a a = .eq := by
  induction a with
  | nil => rfl
  | cons x xs ih => simp [lexCmp, ih]

theorem lexCmp_eq_iff {a b : Bytes} : lexCmp a b = .eq ↔ a = b := by
  induction a generalizing b with
  | nil => cases b <;> simp [lexCmp]
  | cons x xs ih =>
    cases b with
    | nil => simp [lexCmp]
    | cons y ys =>
      rcases Nat.lt_trichotomy x y with h | h | h
      · have hne : x ≠ y := Nat.ne_of_lt h
        simp [lexCmp, h, hne]
      · subst h
        simp [lexCmp, ih]
      · have hne : x ≠ y := (Nat.ne_of_lt h).symm
        have hnlt : ¬ x < y := Nat.lt_asymm h
        simp [lexCmp, hnlt, h, hne]

theorem lexCmp_lt_ne {a b : Bytes} (h : lexCmp a b = .lt) : a ≠ b := by
  intro he
  subst he
  rw [lexCmp_self] at h
  cases h

theorem lexCmp_gt_iff {a b : Bytes} : lexCmp a b = .gt ↔ lexCmp b a = .lt := by
  induction a generalizing b with
  | nil => cases b <;> simp [lexCmp]
  | cons x xs ih =>
    cases b with
    | nil => simp [lexCmp]
    | cons y ys =>
      rcases Nat.lt_trichotomy x y with h | h | h
      · have hnlt : ¬ y < x := Nat.lt_asymm h
        simp [lexCmp, h, hnlt]
      · subst h
        simp [lexCmp, ih]
      · have hnlt : ¬ x < y := Nat.lt_asymm h
        simp [lexCmp, h, hnlt]

theorem lexCmp_lt_trans {a b c : Bytes} :
    lexCmp a b = .lt → lexCmp b c = .lt → lexCmp a c = .lt := by
  induction a generalizing b c with
  | nil =>
    intro h1 h2
    cases b with
    | nil => simp [lexCmp] at h1
    | cons y ys =>
      cases c with
      | nil => simp [lexCmp] at h2
      | cons z zs => simp [lexCmp]
  | cons x xs ih =>
    intro h1 h2
    cases b with
    | nil => simp [lexCmp] at h1
    | cons y ys =>
      cases c with
      | nil => simp [lexCmp] at h2
      | cons z zs =>
        simp only [lexCmp] at h1 h2 ⊢
        rcases Nat.lt_trichotomy x y with hxy | hxy | hxy
        · rcases Nat.lt_trichotomy y z with hyz | hyz | hyz
          · simp [Nat.lt_trans hxy hyz]
          · subst hyz
            simp [hxy]
          · simp [Nat.lt_asymm hyz, hyz] at h2
        · subst hxy
          simp only [lt_self_iff_false, if_false] at h1
          rcases Nat.lt_trichotomy x z with hyz | hyz | hyz
          · simp [hyz]
          · subst hyz
            simp only [lt_self_iff_false, if_false] at h2 ⊢
            exact ih h1 h2
          · simp [Nat.lt_asymm hyz, hyz] at h2
        · simp [Nat.lt_asymm hxy, hxy] at h1

theorem look_none_of_lt {α : Type} {m : AL α} {k : Bytes}
    (h : ∀ p ∈ m, lexCmp k p.1 = .lt) : look m k = none := by
  induction m with
  | nil => rfl
  | cons p t ih =>
    have hne : k ≠ p.1 := lexCmp_lt_ne (h p (by simp))
    obtain ⟨q, v⟩ := p
    simp only [look, if_neg hne]
    exact ih (fun p hp => h p (by simp [hp]))

theorem mem_of_look {α : Type} {m : AL α} {k : Bytes} {v : α}
    (h : look m k = some v) : (k, v) ∈ m := by
  induction m with
  | nil => simp [look] at h
  | cons p t ih =>
    obtain ⟨q, w⟩ := p
    by_cases hk : k = q
    · subst hk
      simp only [look, if_true, eq_self_iff_true, Option.some.injEq] at h
      subst h
      simp
    · simp only [look, if_neg hk] at h
      simp [ih h]

theorem mem_upd {α : Type} {m : AL α} {k : Bytes} {g : α → α} {d : α} {p : Bytes × α}
    (h : p ∈ upd m k g d) :
    p = (k, d) ∨ p ∈ m ∨ ∃ v, (k, v) ∈ m ∧ p = (k, g v) := by
  induction m with
  | nil =>
    simp [upd] at h
    exact Or.inl h
  | cons q t ih =>
    obtain ⟨kq, vq⟩ := q
    simp only [upd] at h
    cases hc : lexCmp k kq with
    | lt =>
      rw [hc] at h
      rcases List.mem_cons.mp h with h1 | h1
      · exact Or.inl h1
      · exact Or.inr (Or.inl h1)
    | eq =>
      have hk : k = kq := lexCmp_eq_iff.mp hc
      subst hk
      rw [hc] at h
      rcases List.mem_cons.mp h with h1 | h1
      · exact Or.inr (Or.inr ⟨vq, by simp, by simp [h1]⟩)
      · exact Or.inr (Or.inl (by simp [h1]))
    | gt =>
      rw [hc] at h
      rcases List.mem_cons.mp h with h1 | h1
      · exact Or.inr (Or.inl (by simp [h1]))
      · rcases ih h1 with h2 | h2 | h2
        · exact Or.inl h2
        · exact Or.inr (Or.inl (by simp [h2]))
        · obtain ⟨v, hv, hp⟩ := h2
          exact Or.inr (Or.inr ⟨v, by simp [hv], hp⟩)

theorem fst_mem_upd {α : Type} {m : AL α} {k : Bytes} {g : α → α} {d : α} {p : Bytes × α}
    (h : p ∈ upd m k g d) : p.1 = k ∨ ∃ v, (p.1, v) ∈ m := by
  rcases mem_upd h with h1 | h1 | h1
  · exact Or.inl (by simp [h1])
  · exact Or.inr ⟨p.2, h1⟩
  · obtain ⟨v, hv, hp⟩ := h1
    exact Or.inl (by simp [hp])

theorem look_upd_ne {α : Type} {m : AL α} {k key : Bytes} (g : α → α) (d : α)
    (h : key ≠ k) : look (upd m k g d) key = look m key := by
  induction m with
  | nil => simp [upd, look, h]
  | cons q t ih =>
    obtain ⟨kq, vq⟩ := q
    simp only [upd]
    cases hc : lexCmp k kq with
    | lt => simp [look, h]
    | eq =>
      have hk : k = kq := lexCmp_eq_iff.mp hc
      subst hk
      simp [look, h]
    | gt => simp [look, ih]

theorem look_upd_self {α : Type} {m : AL α} (hs : SortedKeys m) (k : Bytes)
    (g : α → α) (d : α) :
    look (upd m k g d) k = some (((look m k).map g).getD d) := by
  induction m with
  | nil => simp [upd, look]
  | cons q t ih =>
    obtain ⟨kq, vq⟩ := q
    have hhead := (List.pairwise_cons.mp hs).1
    have htail := (List.pairwise_cons.mp hs).2
    simp only [upd]
    cases hc : lexCmp k kq with
    | lt =>
      have hne : k ≠ kq := lexCmp_lt_ne hc
      have ht : look t k = none :=
        look_none_of_lt (fun p hp => lexCmp_lt_trans hc (hhead p hp))
      simp [look, hne, ht]
    | eq =>
      have hk : k = kq := lexCmp_eq_iff.mp hc
      subst hk
      simp [look]
    | gt =>
      have hne : k ≠ kq := fun he => by
        subst he
        rw [lexCmp_self] at hc
        cases hc
      simp [look, hne, ih htail]

theorem sorted_upd {α : Type} {m : AL α} (hs : SortedKeys m) (k : Bytes)
    (g : α → α) (d : α) : SortedKeys (upd m k g d) := by
  induction m with
  | nil => simp [upd, SortedKeys]
  | cons q t ih =>
    obtain ⟨kq, vq⟩ := q
    have hhead := (List.pairwise_cons.mp hs).1
    have htail := (List.pairwise_cons.mp hs).2
    simp only [upd]
    cases hc : lexCmp k kq with
    | lt =>
      refine List.pairwise_cons.mpr ⟨?_, hs⟩
      intro p hp
      rcases List.mem_cons.mp hp with h1 | h1
      · simp [h1, hc]
      · exact lexCmp_lt_trans hc (hhead p h1)
    | eq => exact List.pairwise_cons.mpr ⟨hhead, htail⟩
    | gt =>
      refine List.pairwise_cons.mpr ⟨?_, ih htail⟩
      intro p hp
      rcases fst_mem_upd hp with h1 | h1
      · rw [h1]
        exact lexCmp_gt_iff.mp hc
      · obtain ⟨v, hv⟩ := h1
        exact hhead (p.1, v) hv

theorem al_ext {α : Type} {m₁ m₂ : AL α} (h₁ : SortedKeys m₁) (h₂ : SortedKeys m₂)
    (h : ∀ k, look m₁ k = look m₂ k) : m₁ = m₂ := by
  induction m₁ generalizing m₂ with
  | nil =>
    cases m₂ with
    | nil => rfl
    | cons p t =>
      have hp := h p.1
      obtain ⟨q, v⟩ := p
      simp [look] at hp
  | cons p t ih =>
    obtain ⟨k₁, v₁⟩ := p
    have hhead₁ := (List.pairwise_cons.mp h₁).1
    have htail₁ := (List.pairwise_cons.mp h₁).2
    cases m₂ with
    | nil =>
      have hp := h k₁
      simp [look] at hp
    | cons q t₂ =>
      obtain ⟨k₂, v₂⟩ := q
      have hhead₂ := (List.pairwise_cons.mp h₂).1
      have htail₂ := (List.pairwise_cons.mp h₂).2
      cases hc : lexCmp k₁ k₂ with
      | lt =>
        have hne : k₁ ≠ k₂ := lexCmp_lt_ne hc
        have hnone : look t₂ k₁ = none :=
          look_none_of_lt (fun p hp => lexCmp_lt_trans hc (hhead₂ p hp))
        have hp := h k₁
        simp [look, hne, hnone] at hp
      | gt =>
        have hlt : lexCmp k₂ k₁ = .lt := lexCmp_gt_iff.mp hc
        have hne : k₂ ≠ k₁ := lexCmp_lt_ne hlt
        have hnone : look t k₂ = none :=
          look_none_of_lt (fun p hp => lexCmp_lt_trans hlt (hhead₁ p hp))
        have hp := h k₂
        simp [look, hne, Ne.symm hne, hnone] at hp
      | eq =>
        have hk : k₁ = k₂ := lexCmp_eq_iff.mp hc
        subst hk
        have hv : v₁ = v₂ := by
          have hp := h k₁
          simpa [look] using hp
        subst hv
        have ht : t = t₂ := by
          refine ih htail₁ htail₂ ?_
          intro k
          by_cases hk : k = k₁
          · subst hk
            have hn₁ : look t k = none :=
              look_none_of_lt (fun p hp => hhead₁ p hp)
            have hn₂ : look t₂ k = none :=
              look_none_of_lt (fun p hp => hhead₂ p hp)
            rw [hn₁, hn₂]
          · have hp := h k
            simpa [look, hk] using hp
        rw [ht]

theorem absorb_nil {α β : Type} (c : α → β → α) (d : α) (m : AL α) :
    absorb c d m [] = m := rfl

theorem absorb_cons {α β : Type} (c : α → β → α) (d : α) (m : AL α)
    (k : Bytes) (x : β) (t : AL β) :
    absorb c d m ((k, x) :: t) = absorb c d (upd m k (fun v => c v x) (c d x)) t := rfl

theorem sorted_absorb {α β : Type} {m : AL α} (hs : SortedKeys m)
    (c : α → β → α) (d : α) (l : AL β) : SortedKeys (absorb c d m l) := by
  induction l generalizing m with
  | nil => exact hs
  | cons p t ih =>
    obtain ⟨k, x⟩ := p
    rw [absorb_cons]
    exact ih (sorted_upd hs k _ _)

theorem look_absorb {α β : Type} {m : AL α} {l : AL β} (c : α → β → α) (dflt : α)
    (hm : SortedKeys m) (hl : SortedKeys l) (k : Bytes) :
    look (absorb c dflt m l) k =
      match look l k with
      | none => look m k
      | some x => some (c ((look m k).getD dflt) x) := by
  induction l generalizing m with
  | nil => simp [absorb_nil, look]
  | cons p t ih =>
    obtain ⟨k₀, x₀⟩ := p
    have hlh := (List.pairwise_cons.mp hl).1
    have hlt := (List.pairwise_cons.mp hl).2
    have hm' : SortedKeys (upd m k₀ (fun v => c v x₀) (c dflt x₀)) :=
      sorted_upd hm k₀ _ _
    rw [absorb_cons, ih hm' hlt]
    by_cases hk : k = k₀
    · subst hk
      have ht : look t k = none := look_none_of_lt (fun p hp => hlh p hp)
      rw [ht, look_upd_self hm]
      simp only [look, if_pos rfl]
      cases look m k <;> simp
    · have h₂ : look ((k₀, x₀) :: t) k = look t k := by simp [look, hk]
      rw [h₂, look_upd_ne _ _ hk]

theorem fst_mem_absorb {α β : Type} {m : AL α} {l : AL β} {c : α → β → α} {dflt : α}
    {p : Bytes × α} (h : p ∈ absorb c dflt m l) :
    (∃ v, (p.1, v) ∈ m) ∨ ∃ x, (p.1, x) ∈ l := by
  induction l generalizing m with
  | nil => exact Or.inl ⟨p.2, h⟩
  | cons q t ih =>
    obtain ⟨k₀, x₀⟩ := q
    rw [absorb_cons] at h
    rcases ih h with h1 | h1
    · obtain ⟨v, hv⟩ := h1
      rcases fst_mem_upd hv with h2 | h2
      · have h2a : p.1 = k₀ := h2
        exact Or.inr ⟨x₀, by simp [h2a]⟩
      · exact Or.inl h2
    · obtain ⟨x, hx⟩ := h1
      exact Or.inr ⟨x, by simp [hx]⟩

theorem add64_lt (a b : Nat) : add64 a b < 18446744073709551616 :=
  Nat.mod_lt _ (by norm_num)

theorem add64_comm (a b : Nat) : add64 a b = add64 b a := by
  simp [add64, Nat.add_comm]

theorem add64_assoc (a b c : Nat) : add64 (add64 a b) c = add64 a (add64 b c) := by
  simp only [add64]
  omega

theorem add64_zero_right {a : Nat} (h : a < 18446744073709551616) : add64 a 0 = a := by
  simp only [add64]
  omega

theorem add64_zero_left (b : Nat) : add64 0 b = b % 18446744073709551616 := by
  simp [add64]

theorem add64_zero_zero : add64 0 0 = 0 := by
  simp [add64]

theorem add64_absorb_left (a b : Nat) : add64 0 (add64 a b) = add64 a b := by
  simp only [add64]
  omega

theorem mergeInner_sorted {m : PooMapInner} (hs : SortedKeys m) (fs : PooMapInner) :
    SortedKeys (mergeInner m fs) := sorted_absorb hs add64 0 fs

theorem mergeInner_bounded {m : PooMapInner}
    (hb : ∀ p ∈ m, p.2 < 18446744073709551616) (fs : PooMapInner) :
    ∀ p ∈ mergeInner m fs, p.2 < 18446744073709551616 := by
  induction fs generalizing m with
  | nil => exact hb
  | cons q t ih =>
    obtain ⟨k₀, x₀⟩ := q
    rw [mergeInner, absorb_cons]
    refine ih ?_
    intro p hp
    rcases mem_upd hp with h1 | h1 | h1
    · rw [h1]
      exact add64_lt 0 x₀
    · exact hb p h1
    · obtain ⟨v, hv, hp'⟩ := h1
      rw [hp']
      exact add64_lt v x₀

theorem InnerWF_mergeInner {m : PooMapInner} (h : InnerWF m) (fs : PooMapInner) :
    InnerWF (mergeInner m fs) :=
  ⟨mergeInner_sorted h.1 fs, mergeInner_bounded h.2 fs⟩

theorem look_mergeInner {m fs : PooMapInner} (hm : InnerWF m) (hfs : SortedKeys fs)
    (w : Bytes) :
    look (mergeInner m fs) w =
      if look m w = none ∧ look fs w = none then none
      else some (add64 ((look m w).getD 0) ((look fs w).getD 0)) := by
  rw [mergeInner, look_absorb add64 0 hm.1 hfs]
  cases hf : look fs w with
  | none =>
    cases hmw : look m w with
    | none => simp
    | some v =>
      have hv : v < 18446744073709551616 := hm.2 (w, v) (mem_of_look hmw)
      simp [add64_zero_right hv]
  | some x => simp

theorem mergeInner_nil_left {m : PooMapInner} (h : InnerWF m) : mergeInner [] m = m := by
  refine al_ext (mergeInner_sorted (by simp [SortedKeys]) m) h.1 ?_
  intro w
  rw [look_mergeInner ⟨by simp [SortedKeys], by simp⟩ h.1]
  cases hmw : look m w with
  | none => simp [look]
  | some v =>
    have hv : v < 18446744073709551616 := h.2 (w, v) (mem_of_look hmw)
    simp [look, add64_zero_left, Nat.mod_eq_of_lt hv]

theorem mergeInner_comm {m₁ m₂ : PooMapInner} (h₁ : InnerWF m₁) (h₂ : InnerWF m₂) :
    mergeInner m₁ m₂ = mergeInner m₂ m₁ := by
  refine al_ext (mergeInner_sorted h₁.1 m₂) (mergeInner_sorted h₂.1 m₁) ?_
  intro w
  rw [look_mergeInner h₁ h₂.1, look_mergeInner h₂ h₁.1]
  cases hw₁ : look m₁ w <;> cases hw₂ : look m₂ w <;> simp [add64_comm]

theorem mergeInner_assoc {m₁ m₂ m₃ : PooMapInner}
    (h₁ : InnerWF m₁) (h₂ : InnerWF m₂) (h₃ : InnerWF m₃) :
    mergeInner (mergeInner m₁ m₂) m₃ = mergeInner m₁ (mergeInner m₂ m₃) := by
  refine al_ext (mergeInner_sorted (mergeInner_sorted h₁.1 m₂) m₃)
    (mergeInner_sorted h₁.1 (mergeInner m₂ m₃)) ?_
  intro w
  rw [look_mergeInner (InnerWF_mergeInner h₁ m₂) h₃.1,
    look_mergeInner h₁ (mergeInner_sorted h₂.1 m₃),
    look_mergeInner h₁ h₂.1, look_mergeInner h₂ h₃.1]
  cases hw₁ : look m₁ w <;> cases hw₂ : look m₂ w <;> cases hw₃ : look m₃ w <;>
    simp [add64_assoc, add64_absorb_left, add64_zero_zero]

theorem mergeInner_nil_right (m : PooMapInner) : mergeInner m [] = m := rfl

theorem InnerWF_nil : InnerWF [] := ⟨by simp [SortedKeys], by simp⟩

theorem mergePoo_sorted {A : PooMap} (hs : SortedKeys A) (B : PooMap) :
    SortedKeys (mergePoo A B) := sorted_absorb hs mergeInner [] B

theorem mergePoo_inners {A : PooMap} (hA : ∀ q ∈ A, InnerWF q.2) (B : PooMap) :
    ∀ q ∈ mergePoo A B, InnerWF q.2 := by
  induction B generalizing A with
  | nil => exact hA
  | cons p t ih =>
    obtain ⟨a₀, fs₀⟩ := p
    rw [mergePoo, absorb_cons]
    refine ih ?_
    intro q hq
    rcases mem_upd hq with h1 | h1 | h1
    · rw [h1]
      exact InnerWF_mergeInner InnerWF_nil fs₀
    · exact hA q h1
    · obtain ⟨v, hv, hq'⟩ := h1
      rw [hq']
      exact InnerWF_mergeInner (hA (a₀, v) hv) fs₀

theorem TableWF_mergePoo {A : PooMap} (hA : TableWF A) (B : PooMap) :
    TableWF (mergePoo A B) := ⟨mergePoo_sorted hA.1 B, mergePoo_inners hA.2 B⟩

theorem look_mergePoo {A B : PooMap} (hA : TableWF A) (hB : TableWF B) (a : Bytes) :
    look (mergePoo A B) a =
      if look A a = none ∧ look B a = none then none
      else some (mergeInner ((look A a).getD []) ((look B a).getD [])) := by
  rw [mergePoo, look_absorb mergeInner [] hA.1 hB.1]
  cases hb : look B a with
  | none =>
    cases ha : look A a with
    | none => simp
    | some mA => simp [mergeInner_nil_right]
  | some fsB => simp

/-- C7: the merge of author-frequency tables — pairwise sums over the union of
words with absent entries as zero, as performed by the fold/reduce closures in
main.rs — is associative and commutative on well-formed tables (sorted
`BTreeMap` shape, `u64`-bounded counts), entry-wise and as whole tables. -/
theorem merge_assoc_comm (A B C : PooMap) (hA : TableWF A) (hB : TableWF B)
    (hC : TableWF C) :
    mergePoo (mergePoo A B) C = mergePoo A (mergePoo B C) ∧
      mergePoo A B = mergePoo B A := by
  constructor
  · refine al_ext (TableWF_mergePoo (TableWF_mergePoo hA B) C).1
      (TableWF_mergePoo hA (mergePoo B C)).1 ?_
    intro a
    rw [look_mergePoo (TableWF_mergePoo hA B) hC,
      look_mergePoo hA (TableWF_mergePoo hB C),
      look_mergePoo hA hB, look_mergePoo hB hC]
    cases ha : look A a with
    | none =>
      cases hb : look B a with
      | none =>
        cases hc : look C a with
        | none => simp
        | some mC =>
          have hwC : InnerWF mC := hC.2 (a, mC) (mem_of_look hc)
          simp [mergeInner_nil_left hwC,
            mergeInner_nil_left (InnerWF_mergeInner InnerWF_nil mC)]
      | some mB =>
        have hwB : InnerWF mB := hB.2 (a, mB) (mem_of_look hb)
        cases hc : look C a with
        | none => simp [mergeInner_nil_right]
        | some mC =>
          simp [mergeInner_nil_left hwB,
            mergeInner_nil_left (InnerWF_mergeInner hwB mC)]
    | some mA =>
      have hwA : InnerWF mA := hA.2 (a, mA) (mem_of_look ha)
      cases hb : look B a with
      | none =>
        cases hc : look C a with
        | none => simp [mergeInner_nil_right]
        | some mC =>
          have hwC : InnerWF mC := hC.2 (a, mC) (mem_of_look hc)
          simp [mergeInner_nil_right, mergeInner_nil_left hwC]
      | some mB =>
        have hwB : InnerWF mB := hB.2 (a, mB) (mem_of_look hb)
        cases hc : look C a with
        | none => simp [mergeInner_nil_right]
        | some mC =>
          have hwC : InnerWF mC := hC.2 (a, mC) (mem_of_look hc)
          simp [mergeInner_assoc hwA hwB hwC]
  · refine al_ext (TableWF_mergePoo hA B).1 (TableWF_mergePoo hB A).1 ?_
    intro a
    rw [look_mergePoo hA hB, look_mergePoo hB hA]
    cases ha : look A a with
    | none =>
      cases hb : look B a with
      | none => simp
      | some mB =>
        have hwB : InnerWF mB := hB.2 (a, mB) (mem_of_look hb)
        simp [mergeInner_nil_left hwB, mergeInner_nil_right]
    | some mA =>
      have hwA : InnerWF mA := hA.2 (a, mA) (mem_of_look ha)
      cases hb : look B a with
      | none => simp [mergeInner_nil_left hwA, mergeInner_nil_right]
      | some mB =>
        have hwB : InnerWF mB := hB.2 (a, mB) (mem_of_look hb)
        simp [mergeInner_comm hwA hwB]

theorem innerOk_nil : innerOk [] := by
  intro p hp
  simp at hp

theorem innerOk_insertRep {m : PooMapInner} (hm : innerOk m) {w : Bytes}
    (hw : wordOk w) (f : Nat) : innerOk (insertRep m w f) := by
  intro p hp
  rcases mem_upd hp with h1 | h1 | h1
  · rw [h1]
    exact hw
  · exact hm p h1
  · obtain ⟨v, hv, hp'⟩ := h1
    rw [hp']
    exact hw

theorem tableOk_insertRep {t : PooMap} (ht : tableOk t) {id : Bytes}
    {m : PooMapInner} (hm : innerOk m) : tableOk (insertRep t id m) := by
  intro q hq
  rcases mem_upd hq with h1 | h1 | h1
  · rw [h1]
    exact hm
  · exact ht q h1
  · obtain ⟨v, hv, hq'⟩ := h1
    rw [hq']
    exact hm

theorem wordOk_of_not_shouldSkip {w : Bytes} (h : shouldSkip w = false) : wordOk w := by
  rw [shouldSkip, Bool.or_eq_false_iff] at h
  exact ⟨h.1, h.2⟩

theorem deserLoop_step_find (data : Bytes) (fuel i lmp : Nat) (acc : PooMap) :
    deserLoop data (fuel + 1) i lmp .findAuthor acc =
      if mkMarker data i = .unknown then
        deserLoop data fuel (i + 1) lmp .findAuthor acc
      else
        match mkMarker data i with
        | .author =>
          match rustSlice data lmp (i - 1) with
          | none => none
          | some id => deserLoop data fuel (i + 1) lmp (.author id [] false) acc
        | .endMark => some acc
        | _ => deserLoop data fuel (i + 1) lmp .findAuthor acc := rfl

theorem deserLoop_step_author (data : Bytes) (fuel i lmp : Nat) (id : Bytes)
    (freqs : PooMapInner) (sk : Bool) (acc : PooMap) :
    deserLoop data (fuel + 1) i lmp (.author id freqs sk) acc =
      if mkMarker data i = .unknown then
        deserLoop data fuel (i + 1) lmp (.author id freqs sk) acc
      else
        match rustSlice data (lmp + 1) (i - 1) with
        | none => none
        | some frame =>
          match mkMarker data i with
          | .freqU8 | .freqU32 | .freqU64 =>
            match establish_freqs (mkMarker data i) frame with
            | none => none
            | some (.freqWordOffset f off) =>
              if shouldSkip (frame.take (frame.length - off)) then
                deserLoop data fuel (i + 1) i (.author id freqs sk) acc
              else
                deserLoop data fuel (i + 1) i
                  (.author id (insertRep freqs (frame.take (frame.length - off)) f) sk) acc
            | some .cont => deserLoop data fuel (i + 1) i (.author id freqs sk) acc
          | .author =>
            match rustSlice data lmp (i - 1) with
            | none => none
            | some id2 => deserLoop data fuel (i + 1) lmp (.author id2 [] false) acc
          | .authorEnd =>
            deserLoop data fuel (i + 1) i .findAuthor (insertRep acc id freqs)
          | .endMark => some acc
          | _ => deserLoop data fuel (i + 1) lmp (.author id freqs sk) acc := rfl

theorem deserLoop_ok (data : Bytes) :
    ∀ fuel i lmp st acc res, stOk st → tableOk acc →
      deserLoop data fuel i lmp st acc = some res → tableOk res := by
  intro fuel
  induction fuel with
  | zero =>
    intro i lmp st acc res _ hacc h
    simp only [deserLoop, Option.some.injEq] at h
    rw [← h]
    exact hacc
  | succ fuel ih =>
    intro i lmp st acc res hst hacc h
    cases st with
    | findAuthor =>
      rw [deserLoop_step_find] at h
      by_cases hm : mkMarker data i = Marker.unknown
      · rw [if_pos hm] at h
        exact ih _ _ _ _ _ hst hacc h
      · rw [if_neg hm] at h
        split at h
        · split at h
          · exact Option.noConfusion h
          · refine ih _ _ _ _ _ ?_ hacc h
            exact innerOk_nil
        · injection h with h2
          rw [← h2]
          exact hacc
        · exact ih _ _ _ _ _ hst hacc h
    | author id freqs sk =>
      rw [deserLoop_step_author] at h
      by_cases hm : mkMarker data i = Marker.unknown
      · rw [if_pos hm] at h
        exact ih _ _ _ _ _ hst hacc h
      · rw [if_neg hm] at h
        split at h
        · exact Option.noConfusion h
        · split at h
          · split at h
            · exact Option.noConfusion h
            · split at h
              · exact ih _ _ _ _ _ hst hacc h
              · rename_i hsk
                refine ih _ _ _ _ _ ?_ hacc h
                exact innerOk_insertRep hst
                  (wordOk_of_not_shouldSkip (by simpa using hsk)) _
            · exact ih _ _ _ _ _ hst hacc h
          · split at h
            · exact Option.noConfusion h
            · split at h
              · exact ih _ _ _ _ _ hst hacc h
              · rename_i hsk
                refine ih _ _ _ _ _ ?_ hacc h
                exact innerOk_insertRep hst
                  (wordOk_of_not_shouldSkip (by simpa using hsk)) _
            · exact ih _ _ _ _ _ hst hacc h
          · split at h
            · exact Option.noConfusion h
            · split at h
              · exact ih _ _ _ _ _ hst hacc h
              · rename_i hsk
                refine ih _ _ _ _ _ ?_ hacc h
                exact innerOk_insertRep hst
                  (wordOk_of_not_shouldSkip (by simpa using hsk)) _
            · exact ih _ _ _ _ _ hst hacc h
          · split at h
            · exact Option.noConfusion h
            · refine ih _ _ _ _ _ ?_ hacc h
              exact innerOk_nil
          · refine ih _ _ _ _ _ ?_ ?_ h
            · exact trivial
            · exact tableOk_insertRep hacc hst
          · injection h with h2
            rw [← h2]
            exact hacc
          · exact ih _ _ _ _ _ hst hacc h

theorem extractLoop_step_find (data user : Bytes) (fuel i lmp : Nat) (acc : PooMap) :
    extractLoop data user (fuel + 1) i lmp .findAuthor acc =
      if mkMarker data i = .unknown then
        extractLoop data user fuel (i + 1) lmp .findAuthor acc
      else
        match mkMarker data i with
        | .author =>
          match rustSlice data (lmp + 1) (i - 1) with
          | none => none
          | some id => extractLoop data user fuel (i + 1) lmp (.author id [] (id ≠ user)) acc
        | .endMark => some none
        | _ => extractLoop data user fuel (i + 1) lmp .findAuthor acc := rfl

theorem extractLoop_step_author (data user : Bytes) (fuel i lmp : Nat) (id : Bytes)
    (freqs : PooMapInner) (sk : Bool) (acc : PooMap) :
    extractLoop data user (fuel + 1) i lmp (.author id freqs sk) acc =
      if mkMarker data i = .unknown then
        extractLoop data user fuel (i + 1) lmp (.author id freqs sk) acc
      else
        match rustSlice data (lmp + 1) (i - 1) with
        | none => none
        | some frame =>
          match mkMarker data i with
          | .freqU8 | .freqU32 | .freqU64 =>
            if sk then extractLoop data user fuel (i + 1) i (.author id freqs sk) acc
            else
              match establish_freqs (mkMarker data i) frame with
              | none => none
              | some (.freqWordOffset f off) =>
                if shouldSkip (frame.take (frame.length - off)) then
                  extractLoop data user fuel (i + 1) i (.author id freqs sk) acc
                else
                  extractLoop data user fuel (i + 1) i
                    (.author id (insertRep freqs (frame.take (frame.length - off)) f) sk) acc
              | some .cont => extractLoop data user fuel (i + 1) i (.author id freqs sk) acc
          | .authorEnd =>
            if sk then
              extractLoop data user fuel (i + 1) i .findAuthor (insertRep acc id freqs)
            else some (some freqs)
          | .endMark => some none
          | _ => extractLoop data user fuel (i + 1) lmp (.author id freqs sk) acc := rfl

theorem extractLoop_ok (data user : Bytes) :
    ∀ fuel i lmp st acc m, stOk st →
      extractLoop data user fuel i lmp st acc = some (some m) → innerOk m := by
  intro fuel
  induction fuel with
  | zero =>
    intro i lmp st acc m _ h
    simp only [extractLoop] at h
    exact absurd h (by simp)
  | succ fuel ih =>
    intro i lmp st acc m hst h
    cases st with
    | findAuthor =>
      rw [extractLoop_step_find] at h
      by_cases hm : mkMarker data i = Marker.unknown
      · rw [if_pos hm] at h
        exact ih _ _ _ _ _ hst h
      · rw [if_neg hm] at h
        split at h
        · split at h
          · exact Option.noConfusion h
          · refine ih _ _ _ _ _ ?_ h
            exact innerOk_nil
        · simp at h
        · exact ih _ _ _ _ _ hst h
    | author id freqs sk =>
      rw [extractLoop_step_author] at h
      by_cases hm : mkMarker data i = Marker.unknown
      · rw [if_pos hm] at h
        exact ih _ _ _ _ _ hst h
      · rw [if_neg hm] at h
        split at h
        · exact Option.noConfusion h
        · split at h
          · split at h
            · exact ih _ _ _ _ _ hst h
            · split at h
              · exact Option.noConfusion h
              · split at h
                · exact ih _ _ _ _ _ hst h
                · rename_i hsk
                  refine ih _ _ _ _ _ ?_ h
                  exact innerOk_insertRep hst
                    (wordOk_of_not_shouldSkip (by simpa using hsk)) _
              · exact ih _ _ _ _ _ hst h
          · split at h
            · exact ih _ _ _ _ _ hst h
            · split at h
              · exact Option.noConfusion h
              · split at h
                · exact ih _ _ _ _ _ hst h
                · rename_i hsk
                  refine ih _ _ _ _ _ ?_ h
                  exact innerOk_insertRep hst
                    (wordOk_of_not_shouldSkip (by simpa using hsk)) _
              · exact ih _ _ _ _ _ hst h
          · split at h
            · exact ih _ _ _ _ _ hst h
            · split at h
              · exact Option.noConfusion h
              · split at h
                · exact ih _ _ _ _ _ hst h
                · rename_i hsk
                  refine ih _ _ _ _ _ ?_ h
                  exact innerOk_insertRep hst
                    (wordOk_of_not_shouldSkip (by simpa using hsk)) _
              · exact ih _ _ _ _ _ hst h
          · split at h
            · refine ih _ _ _ _ _ ?_ h
              exact trivial
            · injection h with h2
              injection h2 with h3
              rw [← h3]
              exact hst
          · simp at h
          · exact ih _ _ _ _ _ hst h

theorem tableOk_nil : tableOk [] := by
  intro q hq
  simp at hq

theorem look_insertRep_self {α : Type} (m : AL α) (k : Bytes) (v : α) :
    look (insertRep m k v) k = some v := by
  induction m with
  | nil => simp [insertRep, upd, look]
  | cons p t ih =>
    obtain ⟨q, w⟩ := p
    simp only [insertRep, upd]
    cases hc : lexCmp k q with
    | lt => simp [look]
    | eq =>
      have hk : k = q := lexCmp_eq_iff.mp hc
      subst hk
      simp [look]
    | gt =>
      have hne : k ≠ q := fun he => by
        subst he
        rw [lexCmp_self] at hc
        cases hc
      simp only [look, if_neg hne]
      simpa [insertRep] using ih

/-- C9: noise filtering.  Any table returned by the streaming decoder (legacy
or headered entry point) and any word table returned by the selective
extractor contains no word with byte substring "http" and no word consisting
entirely of ASCII decimal digits; in particular the words "12345"
(`[49,50,51,52,53]`) and "seehttpexample" are never bound in a decoded table. -/
theorem noise_filter_never_decoded :
    (∀ data res, try_deserialize_original data = some res → tableOk res) ∧
    (∀ data res, deserialize data = some res → tableOk res) ∧
    (∀ data user m, extract_user data user = some (some m) → innerOk m) ∧
    (∀ data res a m, try_deserialize_original data = some res → (a, m) ∈ res →
      look m [49, 50, 51, 52, 53] = none ∧
      look m [115, 101, 101, 104, 116, 116, 112, 101, 120, 97, 109, 112, 108, 101] = none) := by
  have horig : ∀ data res, try_deserialize_original data = some res → tableOk res := by
    intro data res h
    exact deserLoop_ok data data.length 0 0 .findAuthor [] res trivial tableOk_nil h
  refine ⟨horig, ?_, ?_, ?_⟩
  · intro data res h
    unfold deserialize at h
    split at h
    · exact Option.noConfusion h
    · unfold try_deserialize_Nov2022A at h
      split at h
      · exact Option.noConfusion h
      · exact horig _ _ h
    · exact horig _ _ h
    · injection h with h2
      rw [← h2]
      exact tableOk_nil
  · intro data user m h
    exact extractLoop_ok data user data.length 0 0 .findAuthor [] m trivial h
  · intro data res a m h hm
    have hin : innerOk m := horig data res h (a, m) hm
    constructor
    · cases hlook : look m [49, 50, 51, 52, 53] with
      | none => rfl
      | some v =>
        have hw := hin _ (mem_of_look hlook)
        have hw2 : allDigits [49, 50, 51, 52, 53] = false := hw.2
        exact absurd hw2 (by decide)
    · cases hlook :
        look m [115, 101, 101, 104, 116, 116, 112, 101, 120, 97, 109, 112, 108, 101] with
      | none => rfl
      | some v =>
        have hw := hin _ (mem_of_look hlook)
        have hw1 : containsHttp
            [115, 101, 101, 104, 116, 116, 112, 101, 120, 97, 109, 112, 108, 101] = false :=
          hw.1
        exact absurd hw1 (by decide)

/-- Witness for C9: the decoder output on a concrete legacy stream satisfies
the noise-filter property, obtained by applying the theorem at that stream. -/
theorem noise_filter_never_decoded_witness :
    tableOk [([97, 98], [([98, 245, 0, 99, 100], 100)])] :=
  noise_filter_never_decoded.1 [97, 98, 245, 0, 99, 100, 7, 255, 0, 244, 0, 243, 0]
    [([97, 98], [([98, 245, 0, 99, 100], 100)])] rfl

/-- C10: duplicate-author replacement.  On an `AuthorEnd` marker the scanner
inserts the open `(identifier, table)` pair into the result by `BTreeMap`
insert, which overwrites any earlier binding of the same key; on a concrete
stream holding two records that parse to the same identifier `[0, 97]`, the
decoded table maps it to the later record's word table only (count 120, not
the sum 119 + 120). -/
theorem author_end_overwrites :
    (∀ data fuel i lmp id frs sk acc,
      data.getD i 0 = 0 → i ≠ 0 → data.getD (i - 1) 0 = 244 →
      lmp + 1 ≤ i - 1 → i - 1 ≤ data.length →
      deserLoop data (fuel + 1) i lmp (.author id frs sk) acc =
        deserLoop data fuel (i + 1) i .findAuthor (insertRep acc id frs)) ∧
    (∀ (acc : PooMap) (k : Bytes) (v : PooMapInner), look (insertRep acc k v) k = some v) ∧
    try_deserialize_original
        [0, 97, 245, 0, 119, 5, 255, 0, 244, 0, 97, 245, 0, 120, 9, 255, 0, 244, 0, 243, 0] =
      some [([0, 97], [([97, 245, 0, 120], 120)])] := by
  refine ⟨?_, ?_, rfl⟩
  · intro data fuel i lmp id frs sk acc h0 hi h244 hab hbl
    have hmk : mkMarker data i = Marker.authorEnd := by
      unfold mkMarker
      rw [if_pos ⟨h0, hi⟩]
      unfold Marker.fromByte
      rw [h244]
      decide
    rw [deserLoop_step_author, hmk]
    have hs : rustSlice data (lmp + 1) (i - 1) =
        some ((data.drop (lmp + 1)).take (i - 1 - (lmp + 1))) := by
      simp [rustSlice, hab, hbl]
    rw [hs]
    simp
  · intro acc k v
    exact look_insertRep_self acc k v

/-- Witness for C10: the `AuthorEnd` step equation applied at a concrete
stream, position and open author record. -/
theorem author_end_overwrites_witness :
    deserLoop [97, 244, 0] 1 2 0 (.author [5] [] false) [] =
      deserLoop [97, 244, 0] 0 3 2 .findAuthor (insertRep [] [5] []) :=
  author_end_overwrites.1 [97, 244, 0] 0 2 0 [5] [] false [] rfl (by decide) rfl
    (by decide) (by decide)

/-- Witness for C7: associativity and commutativity applied at concrete
well-formed tables. -/
theorem merge_assoc_comm_witness :
    mergePoo (mergePoo [([97], [([3], 5)])]
        [([97], [([3], 2), ([4], 1)]), ([98], [([5], 9)])]) [([98], [([5], 1)])] =
      mergePoo [([97], [([3], 5)])]
        (mergePoo [([97], [([3], 2), ([4], 1)]), ([98], [([5], 9)])] [([98], [([5], 1)])]) ∧
    mergePoo [([97], [([3], 5)])] [([97], [([3], 2), ([4], 1)]), ([98], [([5], 9)])] =
      mergePoo [([97], [([3], 2), ([4], 1)]), ([98], [([5], 9)])] [([97], [([3], 5)])] :=
  merge_assoc_comm _ _ _
    (by unfold TableWF InnerWF SortedKeys; decide)
    (by unfold TableWF InnerWF SortedKeys; decide)
    (by unfold TableWF InnerWF SortedKeys; decide)

theorem beVal_be4 {f : Nat} (h : f < 4294967296) : beVal (be4 f) = f := by
  simp only [beVal, be4, List.foldl]
  omega

theorem beVal_be8 {f : Nat} (h : f < 18446744073709551616) : beVal (be8 f) = f := by
  simp only [beVal, be8, List.foldl]
  omega

/-- C8: width boundary.  The encoder's frequency chunk uses the 1-byte payload
and tag 255 at 255, the 4-byte big-endian payload and tag 254 at 256 and at
4294967295, and the 8-byte big-endian payload and tag 253 at 4294967296; in
general the width is chosen purely by magnitude with thresholds 255 and
2^32 − 1, the payload holding the exact big-endian value. -/
theorem freq_width_boundaries :
    freqChunk 255 = [255, 255, 0] ∧
    freqChunk 256 = [0, 0, 1, 0, 254, 0] ∧
    freqChunk 4294967295 = [255, 255, 255, 255, 254, 0] ∧
    freqChunk 4294967296 = [0, 0, 0, 1, 0, 0, 0, 0, 253, 0] ∧
    (∀ f : Nat,
      (f ≤ 255 → freqChunk f = [f, 255, 0]) ∧
      (255 < f → f ≤ 4294967295 →
        ∃ p, p.length = 4 ∧ beVal p = f ∧ freqChunk f = p ++ [254, 0]) ∧
      (4294967295 < f → f < 18446744073709551616 →
        ∃ p, p.length = 8 ∧ beVal p = f ∧ freqChunk f = p ++ [253, 0])) := by
  refine ⟨rfl, rfl, rfl, rfl, ?_⟩
  intro f
  refine ⟨?_, ?_, ?_⟩
  · intro h
    have hm : f % 256 = f := Nat.mod_eq_of_lt (by omega)
    simp [freqChunk, h, hm]
  · intro h1 h2
    refine ⟨be4 f, rfl, beVal_be4 (by omega), ?_⟩
    simp [freqChunk, Nat.not_le.mpr h1, h2]
  · intro h1 h2
    refine ⟨be8 f, rfl, beVal_be8 h2, ?_⟩
    simp [freqChunk, Nat.not_le.mpr (by omega : (255 : Nat) < f), Nat.not_le.mpr h1]

/-- Witness for C8: the general width rule applied at frequency 300. -/
theorem freq_width_boundaries_witness :
    ∃ p, p.length = 4 ∧ beVal p = 300 ∧ freqChunk 300 = p ++ [254, 0] :=
  ((freq_width_boundaries.2.2.2.2 300).2.1 (by norm_num) (by norm_num))

/-- C5: format-detector behaviour on short buffers.  Buffers shorter than 10
bytes classify `TooShort` and `deserialize` returns the empty table; but the
detector is NOT total: a buffer of length 10 (more generally any length in
10..27) makes the header reads index past the end — a panic, modelled `none` —
while every buffer of length at least 27 is classified. -/
theorem format_detector_short_buffers :
    (∀ data : Bytes, data.length < 10 →
      RGFileFormat.from_buf data = some .tooShort ∧ deserialize data = some []) ∧
    RGFileFormat.from_buf (List.replicate 10 0) = none ∧
    (∀ data : Bytes, 27 ≤ data.length → RGFileFormat.from_buf data ≠ none) := by
  refine ⟨?_, rfl, ?_⟩
  · intro data h
    have hb : RGFileFormat.from_buf data = some .tooShort := by
      unfold RGFileFormat.from_buf
      rw [if_pos h]
    refine ⟨hb, ?_⟩
    unfold deserialize
    rw [hb]
  · intro data h
    unfold RGFileFormat.from_buf
    rw [if_neg (by omega), if_neg (by omega)]
    simp

/-- Witness for C5: the short-buffer clause applied to the empty buffer. -/
theorem format_detector_short_buffers_witness :
    RGFileFormat.from_buf [] = some .tooShort ∧ deserialize [] = some [] :=
  format_detector_short_buffers.1 [] (by decide)

/-- C6: header slice-off.  The encoder's header (magic, version, author count,
word count) is 27 bytes, but the current-revision decode path slices off 28
bytes, so the first byte of the first author record (the 97 of author
`[97, 98]`) is lost: decoding the full container disagrees with legacy
decoding of the buffer minus its 27-byte header. -/
theorem header_slice_mismatch :
    serialize [([97, 98], [([99, 100], 7)])] =
      ragegunMagic ++ be4 1 ++ be8 1 ++ be8 1 ++
        [97, 98, 245, 0, 99, 100, 7, 255, 0, 244, 0, 243, 0] ∧
    (ragegunMagic ++ be4 1 ++ be8 1 ++ be8 1).length = 27 ∧
    deserialize (serialize [([97, 98], [([99, 100], 7)])]) =
      try_deserialize_original ((serialize [([97, 98], [([99, 100], 7)])]).drop 28) ∧
    try_deserialize_original ((serialize [([97, 98], [([99, 100], 7)])]).drop 27) =
      some [([97, 98], [([98, 245, 0, 99, 100], 100)])] ∧
    deserialize (serialize [([97, 98], [([99, 100], 7)])]) =
      some [([98], [([245, 0, 99, 100], 100)])] ∧
    ([([98], [([245, 0, 99, 100], 100)])] : PooMap) ≠
      [([97, 98], [([98, 245, 0, 99, 100], 100)])] :=
  ⟨rfl, rfl, rfl, rfl, rfl, by decide⟩

/-- C1: round trip fails.  The table `{"ab": {"cd": 7}}` satisfies every
hypothesis of the claim (no marker-pair collisions, no "http", not purely
numeric), yet decoding its encoding yields `{"b": {[245,0,99,100]: 100}}`,
not the original table. -/
theorem round_trip_failure :
    containsMarkerPair [97, 98] = false ∧ containsMarkerPair [99, 100] = false ∧
    shouldSkip [99, 100] = false ∧ shouldSkip [97, 98] = false ∧
    deserialize (serialize [([97, 98], [([99, 100], 7)])]) =
      some [([98], [([245, 0, 99, 100], 100)])] ∧
    deserialize (serialize [([97, 98], [([99, 100], 7)])]) ≠
      some [([97, 98], [([99, 100], 7)])] :=
  ⟨rfl, rfl, rfl, rfl, rfl, by decide⟩

/-- C2: frequency-frame split is misread.  On the encoder-produced `FreqU8`
frame `[99, 100, 7]` (word "cd", payload 7) the decoder reads the frequency
from `frame[len − 2]`, giving 100 — the last byte of the word — instead of the
trailing byte 7; on a `FreqU32` frame it drops the last word byte into the
payload window.  End to end, the stream encoding `{"ab": {"cd": 7}}` decodes
the pair (word `[98,245,0,99,100]`, count 100), not ("cd", 7). -/
theorem frame_split_misread :
    establish_freqs .freqU8 [99, 100, 7] = some (.freqWordOffset 100 1) ∧
    beVal ([99, 100, 7].drop 2) = 7 ∧ (100 : Nat) ≠ 7 ∧
    establish_freqs .freqU32 [99, 100, 0, 0, 0, 7] =
      some (.freqWordOffset (beVal [100, 0, 0, 0]) 5) ∧
    [99, 100, 0, 0, 0, 7].take (6 - 5) = [99] ∧
    beVal [100, 0, 0, 0] ≠ beVal [0, 0, 0, 7] ∧
    try_deserialize_original [97, 98, 245, 0, 99, 100, 7, 255, 0, 244, 0, 243, 0] =
      some [([97, 98], [([98, 245, 0, 99, 100], 100)])] :=
  ⟨rfl, rfl, by decide, rfl, rfl, by decide, rfl⟩

/-- C3: corruption tolerance fails.  Inserting the single spurious reserved
pair `[254, 0]` at position 9 of a valid author record leaves the scanner with
an empty frame whose 4-byte payload read underflows — a panic (`none`), so the
decoder crashes rather than skipping the disrupted frame. -/
theorem corruption_tolerance_failure :
    try_deserialize_original [97, 98, 245, 0, 99, 100, 7, 255, 0, 244, 0, 243, 0] =
      some [([97, 98], [([98, 245, 0, 99, 100], 100)])] ∧
    [97, 98, 245, 0, 99, 100, 7, 255, 0, 254, 0, 244, 0, 243, 0] =
      [97, 98, 245, 0, 99, 100, 7, 255, 0, 244, 0, 243, 0].take 9 ++ [254, 0] ++
        [97, 98, 245, 0, 99, 100, 7, 255, 0, 244, 0, 243, 0].drop 9 ∧
    try_deserialize_original [97, 98, 245, 0, 99, 100, 7, 255, 0, 254, 0, 244, 0, 243, 0] =
      none :=
  ⟨rfl, rfl, rfl⟩

/-- C4: selective extraction does not match full decode.  On a stream whose
full decode binds author `[97, 98]` ("ab"), `extract_user` with the same
identifier finds nothing (it slices the identifier one byte later, reading
"b"), while extracting "b" returns the table that decode associates with
"ab". -/
theorem extract_decode_divergence :
    try_deserialize_original [97, 98, 245, 0, 99, 100, 7, 255, 0, 244, 0, 243, 0] =
      some [([97, 98], [([98, 245, 0, 99, 100], 100)])] ∧
    look [([97, 98], [([98, 245, 0, 99, 100], 100)])] [97, 98] =
      some [([98, 245, 0, 99, 100], 100)] ∧
    extract_user [97, 98, 245, 0, 99, 100, 7, 255, 0, 244, 0, 243, 0] [97, 98] =
      some none ∧
    extract_user [97, 98, 245, 0, 99, 100, 7, 255, 0, 244, 0, 243, 0] [98] =
      some (some [([98, 245, 0, 99, 100], 100)]) :=
  ⟨rfl, rfl, rfl, rfl⟩
